import Mathlib

/-!
Verification development for the GitHub code-browser component
(`src/index/code-browser.js`).

The JavaScript source is shallowly embedded below:

* JS objects used as string-keyed dictionaries become insertion-ordered
  association lists (`JTree`);
* the tree-building loop of `buildFileTree` becomes the recursive
  function `insertSegs`; reading or writing a property of `undefined`
  (which raises a `TypeError` in JS, e.g. when a path descends through
  a slot already holding a file node) is modelled by `Option.none`,
  and the thrown exception propagates through the record loop;
* network requests (`fetch`) are modelled by an explicit environment
  `Env` mapping requests to responses;
* the host's `localeCompare` is an abstract comparison parameter, and
  `Array.prototype.sort` is modelled by an insertion sort over the
  comparator built in `createTreeElement`.
-/

/-- Split a character list on a separator character, JS
`String.prototype.split` style: `"".split` gives `[""]`, separators at
the ends or adjacent separators give empty segments. -/
def splitCharsOn (sep : Char) : List Char → List (List Char)
  | [] => [[]]
  | c :: cs =>
    if c = sep then [] :: splitCharsOn sep cs
    else
      match splitCharsOn sep cs with
      | [] => [[c]]
      | s :: ss => (c :: s) :: ss

/-- Join character-list segments with a separator, inverse of
`splitCharsOn`. -/
def joinCharsOn (sep : Char) : List (List Char) → List Char
  | [] => []
  | [s] => s
  | s :: ss => s ++ sep :: joinCharsOn sep ss

/-- `path.split('/')` from `buildFileTree` (line 116 of the source). -/
def splitSegs (s : String) : List String :=
  (splitCharsOn '/' s.data).map String.mk

/-- Join path segments back with `'/'`; used to state the
reconstructed-path property. -/
def joinSegs (l : List String) : String :=
  String.mk (joinCharsOn '/' (l.map String.data))

/-- JS `String.prototype.includes` restricted to what the source needs:
`pat` occurs contiguously inside `s`. -/
def listContainsSeg (pat : List Char) : List Char → Bool
  | [] => pat.isEmpty
  | c :: cs => (pat == (c :: cs).take pat.length) || listContainsSeg pat cs

/-- `file.path.includes(excluded)` (line 112 of the source). -/
def strIncludes (s pat : String) : Bool :=
  listContainsSeg pat.data s.data

/-- One record of the flat listing returned by the tree API: the
fields of a blob item that `buildFileTree` reads (`path`, `sha`,
`size`). -/
structure FileRec where
  path : String
  sha : String
  size : Nat
deriving Repr, DecidableEq

/-- A node of the built tree: the objects created at lines 124-135 of
the source, either `{type:'file', path, sha, size}` or
`{type:'folder', children}`. -/
inductive JNode where
  | file (path : String) (sha : String) (size : Nat)
  | folder (children : List (String × JNode))
deriving Repr

/-- A JS object used as a dictionary from names to nodes, modelled as
an insertion-ordered association list with unique keys. -/
abbrev JTree := List (String × JNode)

/-- Property read `obj[k]`: `none` models `undefined` (absent key). -/
def lookupKey : JTree → String → Option JNode
  | [], _ => none
  | (k', v') :: rest, k => if k' = k then some v' else lookupKey rest k

/-- Property write `obj[k] = v`: an existing key keeps its position,
a new key is appended (JS insertion order for string keys). -/
def setKey : JTree → String → JNode → JTree
  | [], k, v => [(k, v)]
  | (k', v') :: rest, k, v =>
    if k' = k then (k, v) :: rest else (k', v') :: setKey rest k v

/-- The per-record loop of `buildFileTree` (lines 116-139): walk the
segments, creating folders for missing intermediate slots, and attach
the file node at the last segment.  When an intermediate slot already
holds a *file* node, the JS code sets `current` to
`current[part].children`, which is `undefined`, and the next loop
iteration raises a `TypeError`; this is modelled by `none`. -/
def insertSegs : JTree → List String → FileRec → Option JTree
  | t, [], _ => some t
  | t, [last], r => some (setKey t last (.file r.path r.sha r.size))
  | t, part :: k2 :: rest, r =>
    match lookupKey t part with
    | none =>
      match insertSegs [] (k2 :: rest) r with
      | none => none
      | some ch => some (setKey t part (.folder ch))
    | some (.folder ch) =>
      match insertSegs ch (k2 :: rest) r with
      | none => none
      | some ch2 => some (setKey t part (.folder ch2))
    | some (.file _ _ _) => none

/-- The exclusion test of `buildFileTree` (line 112):
`this.excludedPaths.some(excluded => file.path.includes(excluded))`. -/
def isExcluded (excludedPaths : List String) (path : String) : Bool :=
  excludedPaths.any (fun excluded => strIncludes path excluded)

/-- The `files.forEach` loop of `buildFileTree` (lines 110-140): skip
excluded records, insert the rest; a thrown `TypeError` propagates. -/
def buildAux (excludedPaths : List String) : JTree → List FileRec → Option JTree
  | t, [] => some t
  | t, f :: fs =>
    if isExcluded excludedPaths f.path then buildAux excludedPaths t fs
    else
      match insertSegs t (splitSegs f.path) f with
      | none => none
      | some t' => buildAux excludedPaths t' fs

/-- `buildFileTree` (lines 107-143 of the source): fold the record
list into a tree starting from the empty object. -/
def buildFileTree (excludedPaths : List String) (files : List FileRec) : Option JTree :=
  buildAux excludedPaths [] files

/-- Descend a tree along a list of names and return the node there;
the root itself is a dictionary, not a node, so the empty key path
addresses nothing. -/
def findAt : JTree → List String → Option JNode
  | _, [] => none
  | t, [k] => lookupKey t k
  | t, k :: k2 :: ks =>
    match lookupKey t k with
    | some (.folder ch) => findAt ch (k2 :: ks)
    | _ => none

/-- A record is present in a built tree when the slot addressed by its
path segments holds exactly its file node. -/
def recordPresent (t : JTree) (r : FileRec) : Bool :=
  match findAt t (splitSegs r.path) with
  | some (.file p s z) => p == r.path && s == r.sha && z == r.size
  | _ => false

/-- `as` is a (weak) leading-segment ancestor of `bs`. -/
def isAncestorList : List String → List String → Bool
  | [], _ => true
  | _ :: _, [] => false
  | a :: as, b :: bs => a == b && isAncestorList as bs

/-- Paths of the records retained by the exclusion filter. -/
def retainedPaths (excludedPaths : List String) (files : List FileRec) : List String :=
  (files.filter (fun f => !isExcluded excludedPaths f.path)).map (·.path)

/-! ### Path splitting and joining -/

theorem splitCharsOn_ne_nil (sep : Char) (cs : List Char) : splitCharsOn sep cs ≠ [] := by
  induction cs with
  | nil => simp [splitCharsOn]
  | cons c cs ih =>
    by_cases h : c = sep
    · simp [splitCharsOn, h]
    · simp only [splitCharsOn, if_neg h]
      cases hs : splitCharsOn sep cs with
      | nil => simp
      | cons s ss => simp

theorem joinCharsOn_splitCharsOn (sep : Char) (cs : List Char) :
    joinCharsOn sep (splitCharsOn sep cs) = cs := by
  induction cs with
  | nil => simp [splitCharsOn, joinCharsOn]
  | cons c cs ih =>
    by_cases h : c = sep
    · subst h
      simp only [splitCharsOn, if_pos rfl]
      cases hs : splitCharsOn c cs with
      | nil => exact absurd hs (splitCharsOn_ne_nil c cs)
      | cons s ss =>
        rw [hs] at ih
        simp [joinCharsOn, ih]
    · simp only [splitCharsOn, if_neg h]
      cases hs : splitCharsOn sep cs with
      | nil => exact absurd hs (splitCharsOn_ne_nil sep cs)
      | cons s ss =>
        rw [hs] at ih
        cases ss with
        | nil => simpa [joinCharsOn] using ih
        | cons s2 ss2 => simpa [joinCharsOn] using ih

theorem joinSegs_splitSegs (s : String) : joinSegs (splitSegs s) = s := by
  obtain ⟨cs⟩ := s
  simp only [joinSegs, splitSegs, List.map_map]
  have : (String.data ∘ String.mk) = id := rfl
  rw [this, List.map_id, joinCharsOn_splitCharsOn]

theorem splitSegs_injective {s s' : String} (h : splitSegs s = splitSegs s') : s = s' := by
  have := joinSegs_splitSegs s
  rw [h, joinSegs_splitSegs] at this
  exact this.symm

theorem splitSegs_ne_nil (s : String) : splitSegs s ≠ [] := by
  simp only [splitSegs, ne_eq, List.map_eq_nil_iff]
  exact splitCharsOn_ne_nil '/' s.data

/-! ### Dictionary operations -/

theorem lookupKey_setKey_self (t : JTree) (k : String) (v : JNode) :
    lookupKey (setKey t k v) k = some v := by
  induction t with
  | nil => simp [setKey, lookupKey]
  | cons p rest ih =>
    obtain ⟨k', v'⟩ := p
    by_cases h : k' = k
    · simp [setKey, lookupKey, h]
    · simp [setKey, lookupKey, h, ih]

theorem lookupKey_setKey_ne (t : JTree) (k k2 : String) (v : JNode) (h : k2 ≠ k) :
    lookupKey (setKey t k v) k2 = lookupKey t k2 := by
  induction t with
  | nil => simp [setKey, lookupKey, Ne.symm h]
  | cons p rest ih =>
    obtain ⟨k', v'⟩ := p
    by_cases hk : k' = k
    · subst hk
      simp [setKey, lookupKey, Ne.symm h]
    · by_cases hk2 : k' = k2
      · subst hk2
        simp [setKey, lookupKey, h]
      · simp [setKey, lookupKey, hk, hk2, ih]

/-! ### Basic facts about `findAt` and ancestors -/

theorem findAt_nil_tree (ks : List String) : findAt ([] : JTree) ks = none := by
  match ks with
  | [] => rfl
  | [k] => rfl
  | k :: k2 :: ks => rfl

theorem isAncestorList_refl (as : List String) : isAncestorList as as = true := by
  induction as with
  | nil => rfl
  | cons a as ih => simp [isAncestorList, ih]

theorem isAncestorList_cons_iff (a b : String) (as bs : List String) :
    isAncestorList (a :: as) (b :: bs) = true ↔ a = b ∧ isAncestorList as bs = true := by
  simp [isAncestorList]

theorem isAncestorList_nil (bs : List String) : isAncestorList [] bs = true := rfl

/-! ### Characterizing `insertSegs` -/

/-- Every file node of the tree after an insertion is either the newly
inserted one, sitting exactly at the inserted segment list, or an old
one found unchanged. -/
theorem insertSegs_find (t : JTree) (segs : List String) (r : FileRec) :
    ∀ t', insertSegs t segs r = some t' →
    ∀ ks p s z, findAt t' ks = some (.file p s z) →
      (ks = segs ∧ p = r.path ∧ s = r.sha ∧ z = r.size) ∨
        findAt t ks = some (.file p s z) := by
  induction t, segs, r using insertSegs.induct with
  | case1 t r =>
    intro t' ht' ks p s z hfind
    simp only [insertSegs, Option.some.injEq] at ht'
    subst ht'
    exact Or.inr hfind
  | case2 t last r =>
    intro t' ht' ks p s z hfind
    simp only [insertSegs, Option.some.injEq] at ht'
    subst ht'
    match ks with
    | [] => simp [findAt] at hfind
    | [k] =>
      by_cases hk : k = last
      · subst hk
        simp only [findAt, lookupKey_setKey_self, Option.some.injEq] at hfind
        cases hfind
        exact Or.inl ⟨rfl, rfl, rfl, rfl⟩
      · simp only [findAt, lookupKey_setKey_ne _ _ _ _ hk] at hfind
        exact Or.inr hfind
    | k :: k2 :: ks' =>
      by_cases hk : k = last
      · subst hk
        simp [findAt, lookupKey_setKey_self] at hfind
      · simp only [findAt, lookupKey_setKey_ne _ _ _ _ hk] at hfind ⊢
        exact Or.inr hfind
  | case3 t part k2 rest r hlk hins ih =>
    intro t' ht'
    simp [insertSegs, hlk, hins] at ht'
  | case4 t part k2 rest r hlk ch hins ih =>
    intro t' ht' ks p s z hfind
    simp only [insertSegs, hlk, hins, Option.some.injEq] at ht'
    subst ht'
    match ks with
    | [] => simp [findAt] at hfind
    | [k] =>
      by_cases hk : k = part
      · subst hk
        simp [findAt, lookupKey_setKey_self] at hfind
      · simp only [findAt, lookupKey_setKey_ne _ _ _ _ hk] at hfind
        exact Or.inr hfind
    | k :: k2' :: ks' =>
      by_cases hk : k = part
      · subst hk
        simp only [findAt, lookupKey_setKey_self] at hfind
        rcases ih ch hins (k2' :: ks') p s z hfind with ⟨hks, hp, hs, hz⟩ | hold
        · exact Or.inl ⟨by rw [hks], hp, hs, hz⟩
        · rw [findAt_nil_tree] at hold
          cases hold
      · simp only [findAt, lookupKey_setKey_ne _ _ _ _ hk] at hfind ⊢
        exact Or.inr hfind
  | case5 t part k2 rest r ch hlk hins ih =>
    intro t' ht'
    simp [insertSegs, hlk, hins] at ht'
  | case6 t part k2 rest r ch hlk ch2 hins ih =>
    intro t' ht' ks p s z hfind
    simp only [insertSegs, hlk, hins, Option.some.injEq] at ht'
    subst ht'
    match ks with
    | [] => simp [findAt] at hfind
    | [k] =>
      by_cases hk : k = part
      · subst hk
        simp [findAt, lookupKey_setKey_self] at hfind
      · simp only [findAt, lookupKey_setKey_ne _ _ _ _ hk] at hfind
        exact Or.inr hfind
    | k :: k2' :: ks' =>
      by_cases hk : k = part
      · subst hk
        simp only [findAt, lookupKey_setKey_self] at hfind
        rcases ih ch2 hins (k2' :: ks') p s z hfind with ⟨hks, hp, hs, hz⟩ | hold
        · exact Or.inl ⟨by rw [hks], hp, hs, hz⟩
        · simp only [findAt, hlk]
          exact Or.inr hold
      · simp only [findAt, lookupKey_setKey_ne _ _ _ _ hk] at hfind ⊢
        exact Or.inr hfind
  | case7 t part k2 rest r path sha size hlk =>
    intro t' ht'
    simp [insertSegs, hlk] at ht'

/-- After a successful insertion, the inserted file node sits exactly
at the inserted segment list. -/
theorem insertSegs_self (t : JTree) (segs : List String) (r : FileRec) :
    ∀ t', segs ≠ [] → insertSegs t segs r = some t' →
      findAt t' segs = some (.file r.path r.sha r.size) := by
  induction t, segs, r using insertSegs.induct with
  | case1 t r =>
    intro t' hne ht'
    exact absurd rfl hne
  | case2 t last r =>
    intro t' hne ht'
    simp only [insertSegs, Option.some.injEq] at ht'
    subst ht'
    simp [findAt, lookupKey_setKey_self]
  | case3 t part k2 rest r hlk hins ih =>
    intro t' hne ht'
    simp [insertSegs, hlk, hins] at ht'
  | case4 t part k2 rest r hlk ch hins ih =>
    intro t' hne ht'
    simp only [insertSegs, hlk, hins, Option.some.injEq] at ht'
    subst ht'
    simp only [findAt, lookupKey_setKey_self]
    exact ih ch (by simp) hins
  | case5 t part k2 rest r ch hlk hins ih =>
    intro t' hne ht'
    simp [insertSegs, hlk, hins] at ht'
  | case6 t part k2 rest r ch hlk ch2 hins ih =>
    intro t' hne ht'
    simp only [insertSegs, hlk, hins, Option.some.injEq] at ht'
    subst ht'
    simp only [findAt, lookupKey_setKey_self]
    exact ih ch2 (by simp) hins
  | case7 t part k2 rest r path sha size hlk =>
    intro t' hne ht'
    simp [insertSegs, hlk] at ht'

/-- A file node not below the inserted segment list survives an
insertion unchanged. -/
theorem insertSegs_preserve (t : JTree) (segs : List String) (r : FileRec) :
    ∀ t', insertSegs t segs r = some t' →
    ∀ ks p s z, findAt t ks = some (.file p s z) →
      isAncestorList segs ks = false →
      findAt t' ks = some (.file p s z) := by
  induction t, segs, r using insertSegs.induct with
  | case1 t r =>
    intro t' ht' ks p s z hfind hanc
    rw [isAncestorList_nil] at hanc
    cases hanc
  | case2 t last r =>
    intro t' ht' ks p s z hfind hanc
    simp only [insertSegs, Option.some.injEq] at ht'
    subst ht'
    match ks with
    | [] => simp [findAt] at hfind
    | [k] =>
      by_cases hk : k = last
      · subst hk
        rw [show isAncestorList [k] [k] = true from isAncestorList_refl [k]] at hanc
        cases hanc
      · simpa only [findAt, lookupKey_setKey_ne _ _ _ _ hk] using hfind
    | k :: k2 :: ks' =>
      by_cases hk : k = last
      · subst hk
        simp [isAncestorList] at hanc
      · simpa only [findAt, lookupKey_setKey_ne _ _ _ _ hk] using hfind
  | case3 t part k2 rest r hlk hins ih =>
    intro t' ht'
    simp [insertSegs, hlk, hins] at ht'
  | case4 t part k2 rest r hlk ch hins ih =>
    intro t' ht' ks p s z hfind hanc
    simp only [insertSegs, hlk, hins, Option.some.injEq] at ht'
    subst ht'
    match ks with
    | [] => simp [findAt] at hfind
    | [k] =>
      by_cases hk : k = part
      · subst hk
        simp [findAt, hlk] at hfind
      · simpa only [findAt, lookupKey_setKey_ne _ _ _ _ hk] using hfind
    | k :: k2' :: ks' =>
      by_cases hk : k = part
      · subst hk
        simp [findAt, hlk] at hfind
      · simp only [findAt, lookupKey_setKey_ne _ _ _ _ hk] at hfind ⊢
        exact hfind
  | case5 t part k2 rest r ch hlk hins ih =>
    intro t' ht'
    simp [insertSegs, hlk, hins] at ht'
  | case6 t part k2 rest r ch hlk ch2 hins ih =>
    intro t' ht' ks p s z hfind hanc
    simp only [insertSegs, hlk, hins, Option.some.injEq] at ht'
    subst ht'
    match ks with
    | [] => simp [findAt] at hfind
    | [k] =>
      by_cases hk : k = part
      · subst hk
        simp [findAt, hlk] at hfind
      · simpa only [findAt, lookupKey_setKey_ne _ _ _ _ hk] using hfind
    | k :: k2' :: ks' =>
      by_cases hk : k = part
      · subst hk
        simp only [findAt, hlk] at hfind
        simp only [findAt, lookupKey_setKey_self]
        have hanc' : isAncestorList (k2 :: rest) (k2' :: ks') = false := by
          by_contra hcon
          rw [Bool.not_eq_false] at hcon
          rw [show isAncestorList (k :: k2 :: rest) (k :: k2' :: ks') = true from
            (isAncestorList_cons_iff k k (k2 :: rest) (k2' :: ks')).mpr ⟨rfl, hcon⟩] at hanc
          cases hanc
        exact ih ch2 hins (k2' :: ks') p s z hfind hanc'
      · simp only [findAt, lookupKey_setKey_ne _ _ _ _ hk] at hfind ⊢
        exact hfind
  | case7 t part k2 rest r path sha size hlk =>
    intro t' ht'
    simp [insertSegs, hlk] at ht'

/-- An insertion fails exactly by running into a file node occupying a
strict (nonempty) ancestor slot of the inserted segment list. -/
theorem insertSegs_none_blocked (t : JTree) (segs : List String) (r : FileRec) :
    insertSegs t segs r = none →
      ∃ ks p s z, ks ≠ [] ∧ isAncestorList ks segs = true ∧ ks ≠ segs ∧
        findAt t ks = some (.file p s z) := by
  induction t, segs, r using insertSegs.induct with
  | case1 t r =>
    intro h
    simp [insertSegs] at h
  | case2 t last r =>
    intro h
    simp [insertSegs] at h
  | case3 t part k2 rest r hlk hins ih =>
    intro h
    rcases ih hins with ⟨ks, p, s, z, hne, hanc, hnee, hfind⟩
    rw [findAt_nil_tree] at hfind
    cases hfind
  | case4 t part k2 rest r hlk ch hins ih =>
    intro h
    simp [insertSegs, hlk, hins] at h
  | case5 t part k2 rest r ch hlk hins ih =>
    intro h
    rcases ih hins with ⟨ks, p, s, z, hne, hanc, hnee, hfind⟩
    refine ⟨part :: ks, p, s, z, by simp, ?_, ?_, ?_⟩
    · exact (isAncestorList_cons_iff part part ks (k2 :: rest)).mpr ⟨rfl, hanc⟩
    · simp only [ne_eq, List.cons.injEq, not_and]
      intro _
      exact hnee
    · match ks, hfind with
      | k :: ks', hfind =>
        match ks' with
        | [] =>
          simp only [findAt, hlk]
          exact hfind
        | k2' :: ks'' =>
          simp only [findAt, hlk]
          exact hfind
  | case6 t part k2 rest r ch hlk ch2 hins ih =>
    intro h
    simp [insertSegs, hlk, hins] at h
  | case7 t part k2 rest r path sha size hlk =>
    intro h
    refine ⟨[part], path, sha, size, by simp, ?_, by simp, ?_⟩
    · exact (isAncestorList_cons_iff part part [] (k2 :: rest)).mpr ⟨rfl, rfl⟩
    · simp only [findAt]
      exact hlk

/-- Every nonempty strict ancestor slot of a slot holding a node holds
a folder node. -/
theorem findAt_ancestor_folder (ks' : List String) :
    ∀ (t : JTree) (ks : List String) (nd : JNode),
      findAt t ks = some nd → isAncestorList ks' ks = true → ks' ≠ ks → ks' ≠ [] →
      ∃ ch, findAt t ks' = some (.folder ch) := by
  induction ks' with
  | nil =>
    intro t ks nd _ _ _ hnil
    exact absurd rfl hnil
  | cons a as ih =>
    intro t ks nd hfind hanc hne _
    match ks with
    | [] => simp [isAncestorList] at hanc
    | b :: bs =>
      rcases (isAncestorList_cons_iff a b as bs).mp hanc with ⟨hab, hanc'⟩
      subst hab
      match as with
      | [] =>
        match bs with
        | [] => exact absurd rfl hne
        | b2 :: bs' =>
          simp only [findAt] at hfind
          cases hlk : lookupKey t a with
          | none => rw [hlk] at hfind; cases hfind
          | some nd' =>
            cases nd' with
            | file p s z => rw [hlk] at hfind; cases hfind
            | folder ch =>
              refine ⟨ch, ?_⟩
              simp only [findAt]
              exact hlk
      | a2 :: as' =>
        match bs with
        | [] => simp [isAncestorList] at hanc'
        | b2 :: bs' =>
          simp only [findAt] at hfind
          cases hlk : lookupKey t a with
          | none => rw [hlk] at hfind; cases hfind
          | some nd' =>
            cases nd' with
            | file p s z => rw [hlk] at hfind; cases hfind
            | folder ch =>
              rw [hlk] at hfind
              have hne' : (a2 :: as') ≠ (b2 :: bs') := by
                intro hcon
                exact hne (by rw [hcon])
              rcases ih ch (b2 :: bs') nd hfind hanc' hne' (by simp) with ⟨ch2, hch2⟩
              refine ⟨ch2, ?_⟩
              simp only [findAt, hlk]
              exact hch2

/-! ### The tree invariant -/

/-- Every file node of the tree sits at the slot addressed by the
segments of its stored path, and its stored path belongs to `P`. -/
def TreeInv (P : List String) (t : JTree) : Prop :=
  ∀ ks p s z, findAt t ks = some (JNode.file p s z) → ks = splitSegs p ∧ p ∈ P

theorem treeInv_nil (P : List String) : TreeInv P [] := by
  intro ks p s z hfind
  rw [findAt_nil_tree] at hfind
  cases hfind

theorem treeInv_insert (P : List String) (t t' : JTree) (f : FileRec)
    (hinv : TreeInv P t) (hins : insertSegs t (splitSegs f.path) f = some t')
    (hP : f.path ∈ P) : TreeInv P t' := by
  intro ks p s z hfind
  rcases insertSegs_find t (splitSegs f.path) f t' hins ks p s z hfind with
    ⟨hks, hp, _, _⟩ | hold
  · subst hp
    exact ⟨hks, hP⟩
  · exact hinv ks p s z hold

theorem buildAux_inv (exc : List String) (P : List String) :
    ∀ (fs : List FileRec) (t₀ t : JTree),
      buildAux exc t₀ fs = some t → TreeInv P t₀ →
      (∀ f ∈ fs, isExcluded exc f.path = false → f.path ∈ P) →
      TreeInv P t := by
  intro fs
  induction fs with
  | nil =>
    intro t₀ t hb hinv _
    simp only [buildAux, Option.some.injEq] at hb
    subst hb
    exact hinv
  | cons f fs ih =>
    intro t₀ t hb hinv hmem
    by_cases hexc : isExcluded exc f.path
    · rw [buildAux, if_pos hexc] at hb
      exact ih t₀ t hb hinv (fun g hg => hmem g (List.mem_cons_of_mem f hg))
    · rw [buildAux, if_neg hexc] at hb
      cases hins : insertSegs t₀ (splitSegs f.path) f with
      | none => rw [hins] at hb; cases hb
      | some t₁ =>
        rw [hins] at hb
        have hP : f.path ∈ P :=
          hmem f (List.mem_cons_self f fs) (Bool.not_eq_true _ ▸ hexc)
        exact ih t₁ t hb (treeInv_insert P t₀ t₁ f hinv hins hP)
          (fun g hg => hmem g (List.mem_cons_of_mem f hg))

theorem buildAux_pres (exc : List String) (rp rs : String) (rz : Nat) :
    ∀ (fs : List FileRec) (t₀ t : JTree),
      buildAux exc t₀ fs = some t →
      findAt t₀ (splitSegs rp) = some (.file rp rs rz) →
      (∀ f ∈ fs, isExcluded exc f.path = false →
        isAncestorList (splitSegs f.path) (splitSegs rp) = true →
        f.path = rp ∧ f.sha = rs ∧ f.size = rz) →
      findAt t (splitSegs rp) = some (.file rp rs rz) := by
  intro fs
  induction fs with
  | nil =>
    intro t₀ t hb hfind _
    simp only [buildAux, Option.some.injEq] at hb
    subst hb
    exact hfind
  | cons f fs ih =>
    intro t₀ t hb hfind hsep
    by_cases hexc : isExcluded exc f.path
    · rw [buildAux, if_pos hexc] at hb
      exact ih t₀ t hb hfind (fun g hg => hsep g (List.mem_cons_of_mem f hg))
    · rw [buildAux, if_neg hexc] at hb
      cases hins : insertSegs t₀ (splitSegs f.path) f with
      | none => rw [hins] at hb; cases hb
      | some t₁ =>
        rw [hins] at hb
        have hfind₁ : findAt t₁ (splitSegs rp) = some (.file rp rs rz) := by
          by_cases hanc : isAncestorList (splitSegs f.path) (splitSegs rp) = true
          · rcases hsep f (List.mem_cons_self f fs) (Bool.not_eq_true _ ▸ hexc) hanc with
              ⟨hp, hs, hz⟩
            have := insertSegs_self t₀ (splitSegs f.path) f t₁
              (splitSegs_ne_nil f.path) hins
            rw [hp, hs, hz] at this
            exact this
          · exact insertSegs_preserve t₀ (splitSegs f.path) f t₁ hins (splitSegs rp)
              rp rs rz hfind (Bool.not_eq_true _ ▸ hanc)
        exact ih t₁ t hb hfind₁ (fun g hg => hsep g (List.mem_cons_of_mem f hg))

theorem buildAux_complete (exc : List String) (r : FileRec) :
    ∀ (fs : List FileRec) (t₀ t : JTree),
      buildAux exc t₀ fs = some t →
      r ∈ fs → isExcluded exc r.path = false →
      (∀ f ∈ fs, isExcluded exc f.path = false →
        isAncestorList (splitSegs f.path) (splitSegs r.path) = true →
        f.path = r.path ∧ f.sha = r.sha ∧ f.size = r.size) →
      findAt t (splitSegs r.path) = some (.file r.path r.sha r.size) := by
  intro fs
  induction fs with
  | nil =>
    intro t₀ t _ hmem
    cases hmem
  | cons f fs ih =>
    intro t₀ t hb hmem hret hsep
    by_cases hexc : isExcluded exc f.path
    · rw [buildAux, if_pos hexc] at hb
      rcases List.mem_cons.mp hmem with hrf | hmem'
      · subst hrf
        rw [hret] at hexc
        cases hexc
      · exact ih t₀ t hb hmem' hret (fun g hg => hsep g (List.mem_cons_of_mem f hg))
    · rw [buildAux, if_neg hexc] at hb
      cases hins : insertSegs t₀ (splitSegs f.path) f with
      | none => rw [hins] at hb; cases hb
      | some t₁ =>
        rw [hins] at hb
        rcases List.mem_cons.mp hmem with hrf | hmem'
        · subst hrf
          have hself := insertSegs_self t₀ (splitSegs r.path) r t₁
            (splitSegs_ne_nil r.path) hins
          exact buildAux_pres exc r.path r.sha r.size fs t₁ t hb hself
            (fun g hg => hsep g (List.mem_cons_of_mem r hg))
        · exact ih t₁ t hb hmem' hret (fun g hg => hsep g (List.mem_cons_of_mem f hg))

theorem buildAux_total (exc : List String) (P : List String)
    (hsep : ∀ p ∈ P, ∀ q ∈ P,
      isAncestorList (splitSegs p) (splitSegs q) = true → splitSegs p = splitSegs q) :
    ∀ (fs : List FileRec) (t₀ : JTree), TreeInv P t₀ →
      (∀ f ∈ fs, isExcluded exc f.path = false → f.path ∈ P) →
      ∃ t, buildAux exc t₀ fs = some t := by
  intro fs
  induction fs with
  | nil =>
    intro t₀ _ _
    exact ⟨t₀, rfl⟩
  | cons f fs ih =>
    intro t₀ hinv hmem
    by_cases hexc : isExcluded exc f.path
    · rcases ih t₀ hinv (fun g hg => hmem g (List.mem_cons_of_mem f hg)) with ⟨t, ht⟩
      exact ⟨t, by rw [buildAux, if_pos hexc]; exact ht⟩
    · cases hins : insertSegs t₀ (splitSegs f.path) f with
      | none =>
        exfalso
        rcases insertSegs_none_blocked t₀ (splitSegs f.path) f hins with
          ⟨ks, p, s, z, hne, hanc, hnee, hfind⟩
        rcases hinv ks p s z hfind with ⟨hks, hP⟩
        have hfP : f.path ∈ P :=
          hmem f (List.mem_cons_self f fs) (Bool.not_eq_true _ ▸ hexc)
        have := hsep p hP f.path hfP (hks ▸ hanc)
        exact hnee (by rw [hks, this])
      | some t₁ =>
        have hfP : f.path ∈ P :=
          hmem f (List.mem_cons_self f fs) (Bool.not_eq_true _ ▸ hexc)
        rcases ih t₁ (treeInv_insert P t₀ t₁ f hinv hins hfP)
          (fun g hg => hmem g (List.mem_cons_of_mem f hg)) with ⟨t, ht⟩
        refine ⟨t, ?_⟩
        rw [buildAux, if_neg hexc, hins]
        exact ht

theorem buildAux_append (exc : List String) :
    ∀ (xs ys : List FileRec) (t₀ : JTree),
      buildAux exc t₀ (xs ++ ys) =
        match buildAux exc t₀ xs with
        | none => none
        | some t₁ => buildAux exc t₁ ys := by
  intro xs
  induction xs with
  | nil =>
    intro ys t₀
    rfl
  | cons f fs ih =>
    intro ys t₀
    by_cases hexc : isExcluded exc f.path
    · rw [List.cons_append, buildAux, if_pos hexc, buildAux, if_pos hexc]
      exact ih ys t₀
    · rw [List.cons_append, buildAux, if_neg hexc, buildAux, if_neg hexc]
      cases hins : insertSegs t₀ (splitSegs f.path) f with
      | none => rfl
      | some t₁ => exact ih ys t₁

/-! ### Rendering order (`createTreeElement`, lines 153-164) -/

/-- `tree[name].type === 'folder'` for a key of the dictionary. -/
def isFolderAt (t : JTree) (k : String) : Bool :=
  match lookupKey t k with
  | some (.folder _) => true
  | _ => false

/-- The comparator passed to `sort` at lines 157-164 of the source,
with the host's `localeCompare` abstracted as `lc`. -/
def entryCmp (lc : String → String → Ordering) (t : JTree) (a b : String) : Ordering :=
  if isFolderAt t a && !isFolderAt t b then .lt
  else if !isFolderAt t a && isFolderAt t b then .gt
  else lc a b

/-- `entryCmp` reports `a` as sorting no later than `b`. -/
def entryLe (lc : String → String → Ordering) (t : JTree) (a b : String) : Bool :=
  match entryCmp lc t a b with
  | .gt => false
  | _ => true

/-- Insert into a sorted list, keeping earlier equal elements first. -/
def insertSorted (le : String → String → Bool) (a : String) : List String → List String
  | [] => [a]
  | b :: bs => if le a b then a :: b :: bs else b :: insertSorted le a bs

/-- `Array.prototype.sort` with a consistent comparator, modelled as a
stable insertion sort. -/
def sortKeys (le : String → String → Bool) : List String → List String
  | [] => []
  | a :: as => insertSorted le a (sortKeys le as)

/-- `Object.keys(tree)`. -/
def treeKeys (t : JTree) : List String := t.map (·.1)

/-- `Object.keys(tree).sort(comparator)` from `createTreeElement`. -/
def sortedEntries (lc : String → String → Ordering) (t : JTree) : List String :=
  sortKeys (entryLe lc t) (treeKeys t)

/-! ### The browser controller -/

/-- One item of the recursive tree listing returned by the GitHub API:
the fields the source reads (`path`, `sha`, `size`, `type`). -/
structure TreeItem where
  path : String
  sha : String
  size : Nat
  type : String

/-- The JSON body of a contents-API response: the fields the source
reads (`content`, `encoding`). -/
structure ContentResp where
  content : String
  encoding : String

/-- The network, modelled as an oracle: whether the branch-lookup
request for a branch name succeeds, the recursive tree listing served
for a branch, and the response served for a contents URL (`none`
models a failed `fetch`). -/
structure Env where
  branchOk : String → Bool
  treeItems : String → Option (List TreeItem)
  contents : String → Option ContentResp

/-- The mutable instance fields of `GitHubCodeBrowser` that the
claims concern. -/
structure BrowserState where
  owner : String
  repo : String
  branch : String
  maxFileSize : Nat
  excludedPaths : List String
  fileTree : Option JTree

/-- `fetchRepositoryTree` (lines 78-105 of the source): try the
current branch; on failure, if the branch was `"main"`, set the
instance branch to `"master"` and retry once by self-call; otherwise
throw.  Returns the list of attempted branch names, the final value of
`this.branch`, and the fetched items (`none` models a thrown error,
from either the branch request or the tree request). -/
def fetchRepositoryTree (env : Env) (branch : String) :
    List String × String × Option (List TreeItem) :=
  if env.branchOk branch then ([branch], branch, env.treeItems branch)
  else if h : branch = "main" then
    let r := fetchRepositoryTree env "master"
    ("main" :: r.1, r.2)
  else ([branch], branch, none)
termination_by (if branch = "main" then 1 else 0)
decreasing_by
  subst h
  decide

/-- The state shown in the tree panel after loading. -/
inductive LoadState where
  | ready (tree : JTree)
  | error (message : String)

/-- The user-facing message of `loadRepository`'s catch block
(line 74 of the source). -/
def loadErrorMessage : String :=
  "Failed to load repository. Make sure the repository is public."

/-- `loadRepository` (lines 67-76): fetch the tree listing, keep only
blob items, build the file tree; any thrown error (failed requests or
the builder's `TypeError`) is caught and shown as `loadErrorMessage`.
Returns the updated instance state, the attempted branch names, and
the final panel state. -/
def loadRepository (st : BrowserState) (env : Env) :
    BrowserState × List String × LoadState :=
  match fetchRepositoryTree env st.branch with
  | (attempts, br, none) => ({ st with branch := br }, attempts, .error loadErrorMessage)
  | (attempts, br, some items) =>
    let blobs := (items.filter (fun i => i.type == "blob")).map
      (fun i => { path := i.path, sha := i.sha, size := i.size : FileRec })
    match buildFileTree st.excludedPaths blobs with
    | none => ({ st with branch := br }, attempts, .error loadErrorMessage)
    | some t =>
      ({ st with branch := br, fileTree := some t }, attempts, .ready t)

/-- The contents-API URL built by `fetchFileContent` (line 242). -/
def fileContentUrl (owner repo branch path : String) : String :=
  "https://api.github.com/repos/" ++ owner ++ "/" ++ repo ++ "/contents/" ++
    path ++ "?ref=" ++ branch

/-- Modelled from the spec: the host `window.atob` base-64 decoder
used at line 252 of the source (an external browser builtin, not code
of this repository).  Decodes the canonical base-64 alphabet with
optional trailing `=` padding; `none` models the `InvalidCharacterError`
thrown on malformed input; whitespace forgiveness is not modelled. -/
def b64Val (c : Char) : Option Nat :=
  if 'A' ≤ c ∧ c ≤ 'Z' then some (c.toNat - 65)
  else if 'a' ≤ c ∧ c ≤ 'z' then some (c.toNat - 97 + 26)
  else if '0' ≤ c ∧ c ≤ '9' then some (c.toNat - 48 + 52)
  else if c = '+' then some 62
  else if c = '/' then some 63
  else none

/-- Decode a padding-stripped base-64 character list into byte values. -/
def b64Decode : List Char → Option (List Nat)
  | [] => some []
  | [_] => none
  | [a, b] =>
    match b64Val a, b64Val b with
    | some va, some vb => some [va * 4 + vb / 16]
    | _, _ => none
  | [a, b, c] =>
    match b64Val a, b64Val b, b64Val c with
    | some va, some vb, some vc =>
      some [va * 4 + vb / 16, (vb % 16) * 16 + vc / 4]
    | _, _, _ => none
  | a :: b :: c :: d :: rest =>
    match b64Val a, b64Val b, b64Val c, b64Val d, b64Decode rest with
    | some va, some vb, some vc, some vd, some tail =>
      some ([va * 4 + vb / 16, (vb % 16) * 16 + vc / 4, (vc % 4) * 64 + vd] ++ tail)
    | _, _, _, _, _ => none

/-- Strip up to two trailing `=` characters. -/
def stripB64Padding (cs : List Char) : List Char :=
  let cs1 := if cs.getLast? = some '=' then cs.dropLast else cs
  if cs1.getLast? = some '=' then cs1.dropLast else cs1

/-- The host `atob`: base-64 text to a byte string. -/
def atob (s : String) : Option String :=
  (b64Decode (stripB64Padding s.data)).map (fun bytes => String.mk (bytes.map Char.ofNat))

/-- `fetchFileContent` (lines 241-256): request the contents URL for
the instance's current branch; on a failed response throw; decode the
body when `data.encoding === 'base64'`, otherwise return
`data.content` as-is.  `none` models a thrown error (failed fetch or
`atob` failure). -/
def fetchFileContent (st : BrowserState) (path : String) (env : Env) : Option String :=
  match env.contents (fileContentUrl st.owner st.repo st.branch path) with
  | none => none
  | some data => if data.encoding == "base64" then atob data.content else some data.content

/-- The state shown in the viewer panel after a file click. -/
inductive FileState where
  | tooLarge (path : String) (size : Nat)
  | displayed (path : String) (content : String)
  | fileError (path : String)

/-- `selectFile` (lines 214-239): if the clicked record's size exceeds
`this.maxFileSize`, show the too-large notice and return before any
fetch; otherwise fetch the content and display it, or show the
file-error notice if the fetch chain threw.  Returns the instance
state (unchanged), the viewer state, and the URL requested (`none`
when no request was issued). -/
def selectFile (st : BrowserState) (path : String) (size : Nat) (env : Env) :
    BrowserState × FileState × Option String :=
  if size > st.maxFileSize then (st, .tooLarge path size, none)
  else
    match fetchFileContent st path env with
    | some content =>
      (st, .displayed path content, some (fileContentUrl st.owner st.repo st.branch path))
    | none =>
      (st, .fileError path, some (fileContentUrl st.owner st.repo st.branch path))

/-! ### Configuration defaults (constructor, lines 22-24; auto-init,
lines 340-354) -/

/-- The default exclusion list of the constructor (line 24). -/
def defaultExcludedPaths : List String :=
  [".git", "node_modules", ".vs", "Binaries", "DerivedDataCache",
    "Intermediate", "Saved", "Build"]

/-- `options.excludedPaths || defaults` (line 24): the default applies
only when the option is absent (`undefined`); any supplied array, the
empty one included, is truthy in JS and wins. -/
def effectiveExcludedPaths (optExcludedPaths : Option (List String)) : List String :=
  match optExcludedPaths with
  | none => defaultExcludedPaths
  | some l => l

/-- `"a,b".split(',')`. -/
def splitCommaStr (s : String) : List String :=
  (splitCharsOn ',' s.data).map String.mk

/-- Lines 346-347 of the auto-init handler:
`excludedPaths ? excludedPaths.split(',') : []`, where a missing
attribute reads as `null` and an empty attribute string is falsy. -/
def domExcludedPathsArray (attr : Option String) : List String :=
  match attr with
  | none => []
  | some s => if s = "" then [] else splitCommaStr s

/-- The auto-init handler always passes the computed array as the
`excludedPaths` option (line 352). -/
def domExcludedPathsOption (attr : Option String) : Option (List String) :=
  some (domExcludedPathsArray attr)

/-! ### Sortedness of the rendered entry order -/

theorem mem_insertSorted (le : String → String → Bool) (a x : String) :
    ∀ l, x ∈ insertSorted le a l → x = a ∨ x ∈ l := by
  intro l
  induction l with
  | nil =>
    intro h
    simp [insertSorted] at h
    exact Or.inl h
  | cons b bs ih =>
    intro h
    rw [insertSorted] at h
    by_cases hle : le a b
    · rw [if_pos hle] at h
      rcases List.mem_cons.mp h with h | h
      · exact Or.inl h
      · exact Or.inr h
    · rw [if_neg hle] at h
      rcases List.mem_cons.mp h with h | h
      · exact Or.inr (List.mem_cons.mpr (Or.inl h))
      · rcases ih h with h | h
        · exact Or.inl h
        · exact Or.inr (List.mem_cons.mpr (Or.inr h))

theorem insertSorted_perm (le : String → String → Bool) (a : String) :
    ∀ l, (insertSorted le a l).Perm (a :: l) := by
  intro l
  induction l with
  | nil => exact List.Perm.refl _
  | cons b bs ih =>
    rw [insertSorted]
    by_cases hle : le a b
    · rw [if_pos hle]
    · rw [if_neg hle]
      exact (ih.cons b).trans (List.Perm.swap a b bs)

theorem sortKeys_perm (le : String → String → Bool) :
    ∀ l, (sortKeys le l).Perm l := by
  intro l
  induction l with
  | nil => exact List.Perm.refl _
  | cons a as ih =>
    rw [sortKeys]
    exact (insertSorted_perm le a (sortKeys le as)).trans (ih.cons a)

theorem pairwise_insertSorted (le : String → String → Bool)
    (htot : ∀ a b, le a b = true ∨ le b a = true)
    (htrans : ∀ a b c, le a b = true → le b c = true → le a c = true)
    (a : String) :
    ∀ l, l.Pairwise (fun x y => le x y = true) →
      (insertSorted le a l).Pairwise (fun x y => le x y = true) := by
  intro l
  induction l with
  | nil =>
    intro _
    simp [insertSorted]
  | cons b bs ih =>
    intro hp
    rcases List.pairwise_cons.mp hp with ⟨hb, hbs⟩
    rw [insertSorted]
    by_cases hle : le a b
    · rw [if_pos hle]
      refine List.pairwise_cons.mpr ⟨?_, hp⟩
      intro x hx
      rcases List.mem_cons.mp hx with hx | hx
      · subst hx
        exact hle
      · exact htrans a b x hle (hb x hx)
    · rw [if_neg hle]
      refine List.pairwise_cons.mpr ⟨?_, ih hbs⟩
      intro x hx
      rcases mem_insertSorted le a x bs hx with hx' | hx'
      · subst hx'
        rcases htot x b with h | h
        · exact absurd h hle
        · exact h
      · exact hb x hx'

theorem pairwise_sortKeys (le : String → String → Bool)
    (htot : ∀ a b, le a b = true ∨ le b a = true)
    (htrans : ∀ a b c, le a b = true → le b c = true → le a c = true) :
    ∀ l, (sortKeys le l).Pairwise (fun x y => le x y = true) := by
  intro l
  induction l with
  | nil => simp [sortKeys]
  | cons a as ih =>
    rw [sortKeys]
    exact pairwise_insertSorted le htot htrans a (sortKeys le as) ih

theorem entryLe_total (lc : String → String → Ordering) (t : JTree)
    (hswap : ∀ a b, lc a b = .gt → lc b a ≠ .gt) (a b : String) :
    entryLe lc t a b = true ∨ entryLe lc t b a = true := by
  unfold entryLe entryCmp
  cases hA : isFolderAt t a <;> cases hB : isFolderAt t b <;> simp [hA, hB]
  · cases hab : lc a b with
    | gt =>
      right
      cases hba : lc b a with
      | gt => exact absurd hba (hswap a b hab)
      | lt => simp
      | eq => simp
    | lt => left; simp
    | eq => left; simp
  · cases hab : lc a b with
    | gt =>
      right
      cases hba : lc b a with
      | gt => exact absurd hba (hswap a b hab)
      | lt => simp
      | eq => simp
    | lt => left; simp
    | eq => left; simp

theorem entryLe_trans (lc : String → String → Ordering) (t : JTree)
    (htrans : ∀ a b c, lc a b ≠ .gt → lc b c ≠ .gt → lc a c ≠ .gt) (a b c : String) :
    entryLe lc t a b = true → entryLe lc t b c = true → entryLe lc t a c = true := by
  unfold entryLe entryCmp
  cases hA : isFolderAt t a <;> cases hB : isFolderAt t b <;>
    cases hC : isFolderAt t c <;> simp [hA, hB, hC] <;>
    intro hab hbc
  · have h1 : lc a b ≠ .gt := by
      cases h : lc a b <;> simp [h] at hab ⊢
    have h2 : lc b c ≠ .gt := by
      cases h : lc b c <;> simp [h] at hbc ⊢
    have h3 := htrans a b c h1 h2
    cases h : lc a c
    · simp
    · simp
    · exact absurd h h3
  · have h1 : lc a b ≠ .gt := by
      cases h : lc a b <;> simp [h] at hab ⊢
    have h2 : lc b c ≠ .gt := by
      cases h : lc b c <;> simp [h] at hbc ⊢
    have h3 := htrans a b c h1 h2
    cases h : lc a c
    · simp
    · simp
    · exact absurd h h3

/-! ### Helper lemmas for the controller -/

theorem recordPresent_iff (t : JTree) (r : FileRec) :
    recordPresent t r = true ↔
      findAt t (splitSegs r.path) = some (.file r.path r.sha r.size) := by
  unfold recordPresent
  cases h : findAt t (splitSegs r.path) with
  | none => simp
  | some nd =>
    cases nd with
    | file p s z =>
      simp only [Bool.and_eq_true, beq_iff_eq, Option.some.injEq]
      constructor
      · rintro ⟨⟨hp, hs⟩, hz⟩
        rw [hp, hs, hz]
      · intro hh
        injection hh with h1 h2 h3
        exact ⟨⟨h1, h2⟩, h3⟩
    | folder ch => simp

theorem fetchRepositoryTree_ok (env : Env) (b : String) (h : env.branchOk b = true) :
    fetchRepositoryTree env b = ([b], b, env.treeItems b) := by
  rw [fetchRepositoryTree]
  simp [h]

theorem fetchRepositoryTree_fail_other (env : Env) (b : String)
    (h : env.branchOk b = false) (hb : b ≠ "main") :
    fetchRepositoryTree env b = ([b], b, none) := by
  rw [fetchRepositoryTree]
  simp [h, hb]

theorem fetchRepositoryTree_fail_main (env : Env) (h : env.branchOk "main" = false) :
    fetchRepositoryTree env "main" =
      ("main" :: (fetchRepositoryTree env "master").1,
        (fetchRepositoryTree env "master").2) := by
  rw [fetchRepositoryTree]
  simp [h]

theorem fetchRepositoryTree_nonmain_attempts (env : Env) (b : String) (hb : b ≠ "main") :
    (fetchRepositoryTree env b).1 = [b] := by
  cases h : env.branchOk b with
  | true => rw [fetchRepositoryTree_ok env b h]
  | false => rw [fetchRepositoryTree_fail_other env b h hb]

theorem selectFile_state_unchanged (st : BrowserState) (path : String) (size : Nat)
    (env : Env) : (selectFile st path size env).1 = st := by
  unfold selectFile
  by_cases h : size > st.maxFileSize
  · rw [if_pos h]
  · rw [if_neg h]
    cases fetchFileContent st path env <;> rfl

theorem selectFile_requested_url (st : BrowserState) (path : String) (size : Nat)
    (env : Env) (h : ¬ size > st.maxFileSize) :
    (selectFile st path size env).2.2 =
      some (fileContentUrl st.owner st.repo st.branch path) := by
  unfold selectFile
  rw [if_neg h]
  cases fetchFileContent st path env <;> rfl

theorem loadRepository_state_fields (st : BrowserState) (env : Env) :
    (loadRepository st env).1.branch = (fetchRepositoryTree env st.branch).2.1 ∧
    (loadRepository st env).1.owner = st.owner ∧
    (loadRepository st env).1.repo = st.repo ∧
    (loadRepository st env).1.maxFileSize = st.maxFileSize := by
  unfold loadRepository
  rcases hf : fetchRepositoryTree env st.branch with ⟨attempts, br, oitems⟩
  cases oitems with
  | none => exact ⟨rfl, rfl, rfl, rfl⟩
  | some items =>
    simp only
    cases buildFileTree st.excludedPaths
      ((items.filter (fun i => i.type == "blob")).map
        (fun i => { path := i.path, sha := i.sha, size := i.size : FileRec })) with
    | none => exact ⟨rfl, rfl, rfl, rfl⟩
    | some t => exact ⟨rfl, rfl, rfl, rfl⟩

theorem loadRepository_attempts (st : BrowserState) (env : Env) :
    (loadRepository st env).2.1 = (fetchRepositoryTree env st.branch).1 := by
  unfold loadRepository
  rcases hf : fetchRepositoryTree env st.branch with ⟨attempts, br, oitems⟩
  cases oitems with
  | none => rfl
  | some items =>
    simp only
    cases buildFileTree st.excludedPaths
      ((items.filter (fun i => i.type == "blob")).map
        (fun i => { path := i.path, sha := i.sha, size := i.size : FileRec })) with
    | none => rfl
    | some t => rfl

theorem entryLe_imp (lc : String → String → Ordering) (t : JTree) (a b : String)
    (h : entryLe lc t a b = true) :
    (isFolderAt t a = false → isFolderAt t b = false) ∧
    (isFolderAt t a = isFolderAt t b → lc a b ≠ .gt) := by
  unfold entryLe entryCmp at h
  cases hA : isFolderAt t a <;> cases hB : isFolderAt t b <;>
    rw [hA, hB] at h <;> simp at h <;> simp [hA, hB]
  · cases hl : lc a b <;> rw [hl] at h <;> simp at h <;> simp
  · cases hl : lc a b <;> rw [hl] at h <;> simp at h <;> simp

/-! ### Claim theorems: the tree builder -/

/-- C1: for any input record list whose retained paths have no
duplicates, every leaf file node of a successfully built tree
reconstructs — by joining its ancestor folder names and its own name
with '/' — exactly the path of an input record, namely the one stored
in the node. -/
theorem buildFileTree_leaf_path_reconstruction
    (excludedPaths : List String) (files : List FileRec) (t : JTree)
    (hnodup : (retainedPaths excludedPaths files).Nodup)
    (hb : buildFileTree excludedPaths files = some t) :
    ∀ ks p s z, findAt t ks = some (.file p s z) →
      joinSegs ks = p ∧ p ∈ retainedPaths excludedPaths files := by
  intro ks p s z hfind
  have hb' : buildAux excludedPaths [] files = some t := hb
  have hmem : ∀ f ∈ files, isExcluded excludedPaths f.path = false →
      f.path ∈ retainedPaths excludedPaths files := by
    intro f hf hexc
    simp only [retainedPaths, List.mem_map, List.mem_filter]
    exact ⟨f, ⟨hf, by rw [hexc]; rfl⟩, rfl⟩
  have hinv := buildAux_inv excludedPaths (retainedPaths excludedPaths files)
    files [] t hb' (treeInv_nil _) hmem
  rcases hinv ks p s z hfind with ⟨hks, hP⟩
  subst hks
  exact ⟨joinSegs_splitSegs p, hP⟩

/-- Witness for C1 at a concrete input. -/
theorem buildFileTree_leaf_path_reconstruction_witness :
    joinSegs ["src", "a.js"] = "src/a.js" ∧
      "src/a.js" ∈ retainedPaths ["node_modules"] [⟨"src/a.js", "s1", 1⟩] :=
  buildFileTree_leaf_path_reconstruction ["node_modules"] [⟨"src/a.js", "s1", 1⟩]
    [("src", .folder [("a.js", .file "src/a.js" "s1" 1)])] (by decide) rfl
    ["src", "a.js"] "src/a.js" "s1" 1 rfl

/-- C4 fails as stated: with exclusion list `["node_modules"]`, the
record `a/b.js` contains no exclude pattern, yet it is dropped
entirely from the built tree because the later record `a` overwrites
its ancestor folder slot. -/
theorem buildFileTree_drop_iff_excluded_counterexample :
    buildFileTree ["node_modules"] [⟨"a/b.js", "s1", 1⟩, ⟨"a", "s2", 2⟩] =
      some [("a", .file "a" "s2" 2)] ∧
    recordPresent [("a", .file "a" "s2" 2)] ⟨"a/b.js", "s1", 1⟩ = false ∧
    isExcluded ["node_modules"] "a/b.js" = false :=
  ⟨rfl, rfl, rfl⟩

/-- C4 (amended): for any successfully built tree, a record whose path
contains an exclude pattern as a substring is unconditionally dropped
(the decision depends only on the record's own path and the pattern
list, not on the order of records); the converse — a retained record is
present — holds provided no two distinct retained records have their
segment lists in an ancestor relation, giving the full iff there. -/
theorem buildFileTree_presence_iff_not_excluded
    (excludedPaths : List String) (files : List FileRec) (t : JTree)
    (hb : buildFileTree excludedPaths files = some t) :
    (∀ r : FileRec, isExcluded excludedPaths r.path = true →
      recordPresent t r = false) ∧
    ((∀ r1 ∈ files, ∀ r2 ∈ files,
      isExcluded excludedPaths r1.path = false →
      isExcluded excludedPaths r2.path = false →
      isAncestorList (splitSegs r1.path) (splitSegs r2.path) = true → r1 = r2) →
      ∀ r ∈ files, recordPresent t r = !isExcluded excludedPaths r.path) := by
  have hb' : buildAux excludedPaths [] files = some t := hb
  have hmem : ∀ f ∈ files, isExcluded excludedPaths f.path = false →
      f.path ∈ retainedPaths excludedPaths files := by
    intro f hf hfexc
    simp only [retainedPaths, List.mem_map, List.mem_filter]
    exact ⟨f, ⟨hf, by rw [hfexc]; rfl⟩, rfl⟩
  have hdrop : ∀ r : FileRec, isExcluded excludedPaths r.path = true →
      recordPresent t r = false := by
    intro r hexc
    by_contra hcon
    rw [Bool.not_eq_false] at hcon
    have hfind := (recordPresent_iff t r).mp hcon
    have hinv := buildAux_inv excludedPaths (retainedPaths excludedPaths files)
      files [] t hb' (treeInv_nil _) hmem
    rcases hinv _ _ _ _ hfind with ⟨_, hP⟩
    simp only [retainedPaths, List.mem_map, List.mem_filter] at hP
    rcases hP with ⟨f, ⟨hf, hfexc⟩, hfp⟩
    rw [hfp, hexc] at hfexc
    simp at hfexc
  refine ⟨hdrop, ?_⟩
  intro hsep r hr
  cases hexc : isExcluded excludedPaths r.path with
  | true =>
    simp only [Bool.not_true]
    exact hdrop r hexc
  | false =>
    simp only [Bool.not_false]
    apply (recordPresent_iff t r).mpr
    apply buildAux_complete excludedPaths r files [] t hb' hr hexc
    intro f hf hfexc hanc
    have hfr := hsep f hf r hr hfexc hexc hanc
    rw [hfr]
    exact ⟨rfl, rfl, rfl⟩

/-- Witness for the amended C4: excluding `"node_modules"` over
`["src/a.js", "node_modules/x.js"]` drops the excluded record
unconditionally and keeps exactly `src/a.js`. -/
theorem buildFileTree_presence_iff_not_excluded_witness :
    recordPresent [("src", .folder [("a.js", .file "src/a.js" "sa" 1)])]
        ⟨"node_modules/x.js", "sx", 2⟩ = false ∧
    recordPresent [("src", .folder [("a.js", .file "src/a.js" "sa" 1)])]
        ⟨"src/a.js", "sa", 1⟩ = !isExcluded ["node_modules"] "src/a.js" :=
  ⟨(buildFileTree_presence_iff_not_excluded ["node_modules"]
      [⟨"src/a.js", "sa", 1⟩, ⟨"node_modules/x.js", "sx", 2⟩]
      [("src", .folder [("a.js", .file "src/a.js" "sa" 1)])] rfl).1
      ⟨"node_modules/x.js", "sx", 2⟩ (by decide),
    (buildFileTree_presence_iff_not_excluded ["node_modules"]
      [⟨"src/a.js", "sa", 1⟩, ⟨"node_modules/x.js", "sx", 2⟩]
      [("src", .folder [("a.js", .file "src/a.js" "sa" 1)])] rfl).2 (by decide)
      ⟨"src/a.js", "sa", 1⟩ (by decide)⟩

/-- C6 fails as stated: the builder is not total.  A record whose path
descends through a slot that an earlier record filled with a file node
makes the JS loop dereference `undefined`, raising a `TypeError`. -/
theorem buildFileTree_no_error_counterexample :
    buildFileTree [] [⟨"a", "s1", 1⟩, ⟨"a/b", "s2", 2⟩] = none := rfl

/-- C6 (amended): the builder returns a tree whenever no retained
record's segment list is a strict ancestor of another retained
record's segment list; in particular malformed paths with empty
segments (leading or trailing slashes) do not fail and produce
empty-named folder nodes. -/
theorem buildFileTree_total_without_strict_ancestors :
    (∀ (excludedPaths : List String) (files : List FileRec),
      (∀ r1 ∈ files, ∀ r2 ∈ files,
        isExcluded excludedPaths r1.path = false →
        isExcluded excludedPaths r2.path = false →
        isAncestorList (splitSegs r1.path) (splitSegs r2.path) = true →
        splitSegs r1.path = splitSegs r2.path) →
      ∃ t, buildFileTree excludedPaths files = some t) ∧
    buildFileTree [] [⟨"/a", "s", 5⟩] =
      some [("", .folder [("a", .file "/a" "s" 5)])] := by
  constructor
  · intro excludedPaths files hsep
    have hmem : ∀ f ∈ files, isExcluded excludedPaths f.path = false →
        f.path ∈ retainedPaths excludedPaths files := by
      intro f hf hfexc
      simp only [retainedPaths, List.mem_map, List.mem_filter]
      exact ⟨f, ⟨hf, by rw [hfexc]; rfl⟩, rfl⟩
    have hsep' : ∀ p ∈ retainedPaths excludedPaths files,
        ∀ q ∈ retainedPaths excludedPaths files,
        isAncestorList (splitSegs p) (splitSegs q) = true →
        splitSegs p = splitSegs q := by
      intro p hp q hq hanc
      simp only [retainedPaths, List.mem_map, List.mem_filter] at hp hq
      rcases hp with ⟨f1, ⟨hf1, hex1⟩, rfl⟩
      rcases hq with ⟨f2, ⟨hf2, hex2⟩, rfl⟩
      have h1 : isExcluded excludedPaths f1.path = false := by
        revert hex1
        cases isExcluded excludedPaths f1.path <;> simp
      have h2 : isExcluded excludedPaths f2.path = false := by
        revert hex2
        cases isExcluded excludedPaths f2.path <;> simp
      exact hsep f1 hf1 f2 hf2 h1 h2 hanc
    exact buildAux_total excludedPaths (retainedPaths excludedPaths files)
      hsep' files [] (treeInv_nil _) hmem
  · rfl

/-- Witness for the amended C6 at a concrete input with an empty
segment. -/
theorem buildFileTree_total_without_strict_ancestors_witness :
    ∃ t, buildFileTree [] [⟨"/a", "s", 5⟩] = some t :=
  buildFileTree_total_without_strict_ancestors.1 [] [⟨"/a", "s", 5⟩] (by decide)

/-- C9: appending a record whose path already addresses a file slot in
a successfully built tree succeeds, silently overwrites that slot with
the later record's identifier and size, and leaves every other file
slot untouched. -/
theorem buildFileTree_duplicate_overwrite
    (excludedPaths : List String) (xs : List FileRec) (r2 : FileRec) (t : JTree)
    (s1 : String) (z1 : Nat)
    (hb : buildFileTree excludedPaths xs = some t)
    (hdup : findAt t (splitSegs r2.path) = some (.file r2.path s1 z1))
    (hret : isExcluded excludedPaths r2.path = false) :
    ∃ t', buildFileTree excludedPaths (xs ++ [r2]) = some t' ∧
      findAt t' (splitSegs r2.path) = some (.file r2.path r2.sha r2.size) ∧
      ∀ ks p s z, ks ≠ splitSegs r2.path →
        (findAt t' ks = some (.file p s z) ↔ findAt t ks = some (.file p s z)) := by
  have hb' : buildAux excludedPaths [] xs = some t := hb
  cases hins : insertSegs t (splitSegs r2.path) r2 with
  | none =>
    exfalso
    rcases insertSegs_none_blocked t (splitSegs r2.path) r2 hins with
      ⟨ks, p, s, z, hne, hanc, hnee, hfindk⟩
    rcases findAt_ancestor_folder ks t (splitSegs r2.path) (.file r2.path s1 z1)
      hdup hanc hnee hne with ⟨ch, hch⟩
    rw [hch] at hfindk
    cases hfindk
  | some t₁ =>
    refine ⟨t₁, ?_, ?_, ?_⟩
    · show buildAux excludedPaths [] (xs ++ [r2]) = some t₁
      rw [buildAux_append excludedPaths xs [r2] [], hb']
      simp only
      rw [buildAux, if_neg (by rw [hret]; exact Bool.false_ne_true), hins]
      rfl
    · exact insertSegs_self t (splitSegs r2.path) r2 t₁ (splitSegs_ne_nil r2.path) hins
    · intro ks p s z hks
      constructor
      · intro hfind
        rcases insertSegs_find t (splitSegs r2.path) r2 t₁ hins ks p s z hfind with
          ⟨hkseq, _, _, _⟩ | hold
        · exact absurd hkseq hks
        · exact hold
      · intro hfind
        by_cases hanc : isAncestorList (splitSegs r2.path) ks = true
        · exfalso
          rcases findAt_ancestor_folder (splitSegs r2.path) t ks (.file p s z)
            hfind hanc (fun hcon => hks hcon.symm) (splitSegs_ne_nil r2.path) with
            ⟨ch, hch⟩
          rw [hch] at hdup
          cases hdup
        · exact insertSegs_preserve t (splitSegs r2.path) r2 t₁ hins ks p s z hfind
            (Bool.not_eq_true _ ▸ hanc)

/-- Witness for C9 at a concrete duplicated path. -/
theorem buildFileTree_duplicate_overwrite_witness :
    ∃ t', buildFileTree [] [⟨"a", "s1", 1⟩, ⟨"a", "s2", 2⟩] = some t' ∧
      findAt t' (splitSegs "a") = some (.file "a" "s2" 2) ∧
      ∀ ks p s z, ks ≠ splitSegs "a" →
        (findAt t' ks = some (.file p s z) ↔
          findAt [("a", JNode.file "a" "s1" 1)] ks = some (.file p s z)) :=
  buildFileTree_duplicate_overwrite [] [⟨"a", "s1", 1⟩] ⟨"a", "s2", 2⟩
    [("a", JNode.file "a" "s1" 1)] "s1" 1 rfl rfl rfl

/-! ### Claim theorems: rendering order -/

/-- C3: for any folder dictionary and any locale comparison that is a
total preorder (as `localeCompare` is), the rendered entry list is a
permutation of the keys in which every folder precedes every file and,
within the folder group and within the file group, names appear in
locale order. -/
theorem sortedEntries_folders_first_locale_order
    (t : JTree) (lc : String → String → Ordering)
    (hswap : ∀ a b, lc a b = .gt → lc b a ≠ .gt)
    (htrans : ∀ a b c, lc a b ≠ .gt → lc b c ≠ .gt → lc a c ≠ .gt) :
    (sortedEntries lc t).Perm (treeKeys t) ∧
    (sortedEntries lc t).Pairwise (fun a b =>
      (isFolderAt t a = false → isFolderAt t b = false) ∧
      (isFolderAt t a = isFolderAt t b → lc a b ≠ .gt)) := by
  refine ⟨sortKeys_perm _ _, ?_⟩
  have hp := pairwise_sortKeys (entryLe lc t) (entryLe_total lc t hswap)
    (entryLe_trans lc t htrans) (treeKeys t)
  exact hp.imp (fun h => entryLe_imp lc t _ _ h)

/-- A concrete locale comparison (by string length) used to witness
the sorting theorem. -/
def lcLen (a b : String) : Ordering := compare a.data.length b.data.length

theorem lcLen_swap (a b : String) : lcLen a b = .gt → lcLen b a ≠ .gt := by
  unfold lcLen
  intro h
  rw [Nat.compare_eq_gt] at h
  rw [ne_eq, Nat.compare_eq_gt]
  omega

theorem lcLen_trans (a b c : String) :
    lcLen a b ≠ .gt → lcLen b c ≠ .gt → lcLen a c ≠ .gt := by
  unfold lcLen
  rw [ne_eq, ne_eq, ne_eq, Nat.compare_eq_gt, Nat.compare_eq_gt, Nat.compare_eq_gt]
  omega

/-- A small concrete folder dictionary: one file, one folder. -/
def demoBrowserTree : JTree :=
  [("zz.js", .file "zz.js" "s1" 1), ("a", .folder [])]

/-- Witness for C3 at a concrete tree and locale comparison. -/
theorem sortedEntries_folders_first_locale_order_witness :
    (sortedEntries lcLen demoBrowserTree).Perm (treeKeys demoBrowserTree) ∧
    (sortedEntries lcLen demoBrowserTree).Pairwise (fun a b =>
      (isFolderAt demoBrowserTree a = false → isFolderAt demoBrowserTree b = false) ∧
      (isFolderAt demoBrowserTree a = isFolderAt demoBrowserTree b → lcLen a b ≠ .gt)) :=
  sortedEntries_folders_first_locale_order demoBrowserTree lcLen lcLen_swap lcLen_trans

/-! ### Claim theorems: the controller -/

theorem loadRepository_of_fetch_none (st : BrowserState) (env : Env)
    (attempts : List String) (br : String)
    (h : fetchRepositoryTree env st.branch = (attempts, br, none)) :
    loadRepository st env = ({ st with branch := br }, attempts, .error loadErrorMessage) := by
  unfold loadRepository
  rw [h]

/-- C2: branch resolution always attempts the configured branch first
and never makes a third attempt; a failed attempt on a branch other
than `"main"` (including the `"master"` retry) stops immediately in
the error state with the user-facing message; a failed attempt on
`"main"` retries exactly once with `"master"`; a failed tree fetch
after a successful branch lookup also stops in the error state. -/
theorem loadRepository_branch_resolution (st : BrowserState) (env : Env) :
    ((loadRepository st env).2.1.head? = some st.branch) ∧
    ((loadRepository st env).2.1.length ≤ 2) ∧
    (env.branchOk st.branch = false → st.branch ≠ "main" →
      (loadRepository st env).2.1 = [st.branch] ∧
      (loadRepository st env).2.2 = .error loadErrorMessage) ∧
    (st.branch = "main" → env.branchOk "main" = false →
      (loadRepository st env).2.1 = ["main", "master"]) ∧
    (st.branch = "main" → env.branchOk "main" = false → env.branchOk "master" = false →
      (loadRepository st env).2.2 = .error loadErrorMessage) ∧
    (env.branchOk st.branch = true → env.treeItems st.branch = none →
      (loadRepository st env).2.1 = [st.branch] ∧
      (loadRepository st env).2.2 = .error loadErrorMessage) := by
  refine ⟨?_, ?_, ?_, ?_, ?_, ?_⟩
  · rw [loadRepository_attempts]
    cases hok : env.branchOk st.branch with
    | true => rw [fetchRepositoryTree_ok env _ hok]; rfl
    | false =>
      by_cases hm : st.branch = "main"
      · rw [hm, fetchRepositoryTree_fail_main env (hm ▸ hok)]
        rfl
      · rw [fetchRepositoryTree_fail_other env _ hok hm]; rfl
  · rw [loadRepository_attempts]
    cases hok : env.branchOk st.branch with
    | true => rw [fetchRepositoryTree_ok env _ hok]; simp
    | false =>
      by_cases hm : st.branch = "main"
      · rw [hm, fetchRepositoryTree_fail_main env (hm ▸ hok),
          fetchRepositoryTree_nonmain_attempts env "master" (by decide)]
        simp
      · rw [fetchRepositoryTree_fail_other env _ hok hm]
        simp
  · intro hfail hnm
    rw [loadRepository_of_fetch_none st env [st.branch] st.branch
      (fetchRepositoryTree_fail_other env _ hfail hnm)]
    exact ⟨rfl, rfl⟩
  · intro hm hfail
    rw [loadRepository_attempts, hm, fetchRepositoryTree_fail_main env hfail,
      fetchRepositoryTree_nonmain_attempts env "master" (by decide)]
  · intro hm hfail hfail2
    have hfetch : fetchRepositoryTree env st.branch = (["main", "master"], "master", none) := by
      rw [hm, fetchRepositoryTree_fail_main env hfail,
        fetchRepositoryTree_fail_other env "master" hfail2 (by decide)]
    rw [loadRepository_of_fetch_none st env ["main", "master"] "master" hfetch]
  · intro hok hnone
    have hfetch : fetchRepositoryTree env st.branch = ([st.branch], st.branch, none) := by
      rw [fetchRepositoryTree_ok env _ hok, hnone]
    rw [loadRepository_of_fetch_none st env [st.branch] st.branch hfetch]
    exact ⟨rfl, rfl⟩

/-- A concrete browser state used by the witnesses. -/
def demoState : BrowserState :=
  { owner := "o", repo := "r", branch := "main", maxFileSize := 100000,
    excludedPaths := [], fileTree := none }

/-- A network where every request fails. -/
def demoEnvDown : Env :=
  { branchOk := fun _ => false, treeItems := fun _ => none, contents := fun _ => none }

/-- Witness for C2: `"main"` and `"master"` both fail, ending in the
error state after exactly two attempts. -/
theorem loadRepository_branch_resolution_witness :
    (loadRepository demoState demoEnvDown).2.2 = .error loadErrorMessage ∧
    (loadRepository demoState demoEnvDown).2.1 = ["main", "master"] :=
  ⟨(loadRepository_branch_resolution demoState demoEnvDown).2.2.2.2.1 rfl rfl rfl,
    (loadRepository_branch_resolution demoState demoEnvDown).2.2.2.1 rfl rfl⟩

/-- C5: a record larger than the configured maximum short-circuits to
the too-large notice, with no network request issued and the instance
state unchanged. -/
theorem selectFile_too_large_no_fetch (st : BrowserState) (path : String)
    (size : Nat) (env : Env) (h : size > st.maxFileSize) :
    selectFile st path size env = (st, .tooLarge path size, none) := by
  unfold selectFile
  rw [if_pos h]

/-- Witness for C5: size 200000 against threshold 100000. -/
theorem selectFile_too_large_no_fetch_witness :
    selectFile demoState "big.bin" 200000 demoEnvDown =
      (demoState, .tooLarge "big.bin" 200000, none) :=
  selectFile_too_large_no_fetch demoState "big.bin" 200000 demoEnvDown (by decide)

/-- C8: when the record is small enough, the fetched body is decoded
exactly when marked base64-encoded (an undecodable body throws, which
surfaces as the file-error state), is displayed as-is otherwise, and
any fetch failure surfaces as the file-error state; `"aGVsbG8="`
decodes to `"hello"`. -/
theorem selectFile_content_decoding (st : BrowserState) (path : String)
    (size : Nat) (env : Env) (hsize : ¬ size > st.maxFileSize) :
    (∀ data txt,
      env.contents (fileContentUrl st.owner st.repo st.branch path) = some data →
      data.encoding = "base64" → atob data.content = some txt →
      selectFile st path size env =
        (st, .displayed path txt,
          some (fileContentUrl st.owner st.repo st.branch path))) ∧
    (∀ data,
      env.contents (fileContentUrl st.owner st.repo st.branch path) = some data →
      data.encoding = "base64" → atob data.content = none →
      selectFile st path size env =
        (st, .fileError path,
          some (fileContentUrl st.owner st.repo st.branch path))) ∧
    (∀ data,
      env.contents (fileContentUrl st.owner st.repo st.branch path) = some data →
      data.encoding ≠ "base64" →
      selectFile st path size env =
        (st, .displayed path data.content,
          some (fileContentUrl st.owner st.repo st.branch path))) ∧
    (env.contents (fileContentUrl st.owner st.repo st.branch path) = none →
      selectFile st path size env =
        (st, .fileError path,
          some (fileContentUrl st.owner st.repo st.branch path))) ∧
    atob "aGVsbG8=" = some "hello" := by
  refine ⟨?_, ?_, ?_, ?_, rfl⟩
  · intro data txt hresp henc hdec
    have hf : fetchFileContent st path env = some txt := by
      unfold fetchFileContent
      rw [hresp]
      simp [henc]
      exact hdec
    unfold selectFile
    rw [if_neg hsize, hf]
  · intro data hresp henc hdec
    have hf : fetchFileContent st path env = none := by
      unfold fetchFileContent
      rw [hresp]
      simp [henc]
      exact hdec
    unfold selectFile
    rw [if_neg hsize, hf]
  · intro data hresp henc
    have hf : fetchFileContent st path env = some data.content := by
      unfold fetchFileContent
      rw [hresp]
      simp [henc]
    unfold selectFile
    rw [if_neg hsize, hf]
  · intro hresp
    have hf : fetchFileContent st path env = none := by
      unfold fetchFileContent
      rw [hresp]
    unfold selectFile
    rw [if_neg hsize, hf]

/-- A network serving one base64-encoded body for every contents URL. -/
def demoEnvB64 : Env :=
  { branchOk := fun _ => true, treeItems := fun _ => none,
    contents := fun _ => some { content := "aGVsbG8=", encoding := "base64" } }

/-- Witness for C8: the served `"aGVsbG8="` displays as `"hello"`. -/
theorem selectFile_content_decoding_witness :
    selectFile demoState "f.js" 5 demoEnvB64 =
      (demoState, .displayed "f.js" "hello",
        some (fileContentUrl "o" "r" "main" "f.js")) :=
  (selectFile_content_decoding demoState "f.js" 5 demoEnvB64 (by decide)).1
    { content := "aGVsbG8=", encoding := "base64" } "hello" rfl rfl rfl

/-- C10: after a successful fallback from `"main"` to `"master"`, the
instance branch is permanently `"master"` (selecting files never
changes it), and every file-content request URL built afterwards
references `"master"`, never the configured `"main"`. -/
theorem loadRepository_fallback_branch_sticky (st : BrowserState) (env : Env)
    (hmain : st.branch = "main")
    (hfail : env.branchOk "main" = false)
    (hok : env.branchOk "master" = true) :
    ((loadRepository st env).1.branch = "master") ∧
    (("master" : String) ≠ "main") ∧
    (∀ path size env2,
      (selectFile (loadRepository st env).1 path size env2).1 =
        (loadRepository st env).1) ∧
    (∀ path size env2, ¬ size > (loadRepository st env).1.maxFileSize →
      (selectFile (loadRepository st env).1 path size env2).2.2 =
        some (fileContentUrl st.owner st.repo "master" path)) := by
  have hfetch : (fetchRepositoryTree env st.branch).2.1 = "master" := by
    rw [hmain, fetchRepositoryTree_fail_main env hfail,
      fetchRepositoryTree_ok env "master" hok]
  rcases loadRepository_state_fields st env with ⟨hbr, how, hrep, _⟩
  refine ⟨by rw [hbr, hfetch], by decide, ?_, ?_⟩
  · intro path size env2
    exact selectFile_state_unchanged _ path size env2
  · intro path size env2 hsz
    rw [selectFile_requested_url _ path size env2 hsz, how, hrep, hbr, hfetch]

/-- A network where only the `"master"` branch lookup succeeds. -/
def demoEnvFallback : Env :=
  { branchOk := fun b => b == "master", treeItems := fun _ => none,
    contents := fun _ => none }

/-- Witness for C10 at a concrete fallback scenario. -/
theorem loadRepository_fallback_branch_sticky_witness :
    ((loadRepository demoState demoEnvFallback).1.branch = "master") ∧
    (("master" : String) ≠ "main") ∧
    (∀ path size env2,
      (selectFile (loadRepository demoState demoEnvFallback).1 path size env2).1 =
        (loadRepository demoState demoEnvFallback).1) ∧
    (∀ path size env2,
      ¬ size > (loadRepository demoState demoEnvFallback).1.maxFileSize →
      (selectFile (loadRepository demoState demoEnvFallback).1 path size env2).2.2 =
        some (fileContentUrl "o" "r" "master" path)) :=
  loadRepository_fallback_branch_sticky demoState demoEnvFallback rfl rfl rfl

/-! ### Claim theorems: configuration defaults -/

/-- C7 fails as stated: DOM auto-initialization without an
excluded-paths attribute passes an empty array, which is truthy in JS,
so the effective exclusion set is empty rather than the default
list. -/
theorem excludedPaths_default_dom_counterexample :
    effectiveExcludedPaths (domExcludedPathsOption none) = [] ∧
    ([] : List String) ≠ defaultExcludedPaths :=
  ⟨rfl, by decide⟩

/-- C7 (amended): the default exclusion list applies exactly when the
`excludedPaths` option is absent; any supplied array — including the
empty array that DOM auto-initialization passes when the attribute is
missing — overrides it, so a DOM-initialized component without the
attribute excludes nothing. -/
theorem excludedPaths_default_semantics :
    effectiveExcludedPaths none = defaultExcludedPaths ∧
    (∀ l, effectiveExcludedPaths (some l) = l) ∧
    effectiveExcludedPaths (domExcludedPathsOption none) = [] :=
  ⟨rfl, fun _ => rfl, rfl⟩
